import Mathlib

/-!
Shallow embedding of the chunking / retry / stitching / orchestration core of
the `doc_to_md` repository, together with proofs checking the natural-language
specification against the code.

Source files embedded:
  * `src/doc_to_md/utils/tokens.py`   (token counting and token-window splitting)
  * `src/doc_to_md/engines/base.py` and `src/doc_to_md/engines/mistral.py`
    (retry loop, chunk planning over per-page token estimates, page stitching)
  * `src/doc_to_md/cli.py`            (orchestrator loop and run metrics)
-/

/-- Equality of `Except` values is decidable when it is on both components;
used to evaluate the embedded functions at concrete inputs. -/
instance {ε α : Type} [DecidableEq ε] [DecidableEq α] : DecidableEq (Except ε α) := fun x y =>
  match x, y with
  | .ok a, .ok b =>
    if h : a = b then isTrue (by rw [h]) else isFalse (fun hc => h (Except.ok.inj hc))
  | .ok a, .error e => isFalse (fun hc => Except.noConfusion hc)
  | .error e, .ok a => isFalse (fun hc => Except.noConfusion hc)
  | .error e, .error e' =>
    if h : e = e' then isTrue (by rw [h]) else isFalse (fun hc => h (Except.error.inj hc))

namespace DocToMd

/-! ## Token chunker (`utils/tokens.py`)

The tiktoken encoding is modelled abstractly: an encoder mapping text to a
token list and a decoder mapping token lists back to text.  `count_tokens`
returns the length of the encoded token list (the source short-circuits empty
text to `0`, which agrees because the fixed encoding maps empty text to the
empty token list). -/

structure TokenCodec (σ : Type) where
  encode : σ → List Nat
  decode : List Nat → σ

def count_tokens {σ : Type} (codec : TokenCodec σ) (text : σ) : Nat :=
  (codec.encode text).length

/-- The `while start < len(tokens)` loop of `split_by_tokens`
(`utils/tokens.py`, lines 44-53), producing the token slice of each window.
`fuel` bounds the number of iterations; `tokens.length + 1` is always enough
because `start` strictly increases each iteration. -/
def splitLoop (tokens : List Nat) (maxTokens overlapTokens : Nat) :
    Nat → Nat → List (List Nat)
  | 0, _ => []
  | fuel + 1, start =>
    if start < tokens.length then
      let e := min (start + maxTokens) tokens.length
      let chunk := (tokens.drop start).take (e - start)
      if e = tokens.length then [chunk]
      else chunk :: splitLoop tokens maxTokens overlapTokens fuel (e - overlapTokens)
    else []

/-- `split_by_tokens` (`utils/tokens.py`, lines 25-53): parameter guards, the
single-segment passthrough, then the sliding-window loop with each window
decoded back to text. -/
def split_by_tokens {σ : Type} (codec : TokenCodec σ) (text : σ)
    (max_tokens overlap_tokens : Int) : Except String (List σ) :=
  if max_tokens ≤ 0 then .error "max_tokens must be positive"
  else if overlap_tokens < 0 then .error "overlap_tokens cannot be negative"
  else if max_tokens ≤ overlap_tokens then .error "overlap_tokens must be smaller than max_tokens"
  else
    let tokens := codec.encode text
    if (tokens.length : Int) ≤ max_tokens then .ok [text]
    else .ok ((splitLoop tokens max_tokens.toNat overlap_tokens.toNat
        (tokens.length + 1) 0).map codec.decode)

/-- The index ranges `(start, end)` of the windows produced by `splitLoop`,
used to reason about the slices. -/
def splitRanges (len maxTokens overlapTokens : Nat) : Nat → Nat → List (Nat × Nat)
  | 0, _ => []
  | fuel + 1, start =>
    if start < len then
      let e := min (start + maxTokens) len
      if e = len then [(start, e)]
      else (start, e) :: splitRanges len maxTokens overlapTokens fuel (e - overlapTokens)
    else []

theorem splitLoop_eq_map_ranges (tokens : List Nat) (m o : Nat) :
    ∀ fuel start, splitLoop tokens m o fuel start =
      (splitRanges tokens.length m o fuel start).map
        (fun r => (tokens.drop r.1).take (r.2 - r.1)) := by
  intro fuel
  induction fuel with
  | zero => intro start; rfl
  | succ f ih =>
    intro start
    simp only [splitLoop, splitRanges]
    by_cases h : start < tokens.length
    · simp only [h, if_true]
      by_cases he : min (start + m) tokens.length = tokens.length
      · simp [he]
      · simp [he, ih]
    · simp [h]

/-- Full characterisation of the window ranges: nonempty, first window starts
at `start`, last window ends at `len`, each window spans `min (a + m) len`,
consecutive windows overlap in exactly `o` token positions, every token
position from `start` on is covered, and the window count follows the
ceiling formula. -/
theorem splitRanges_spec (len m o : Nat) (ho : o < m) :
    ∀ fuel start, start < len → len - start ≤ fuel →
      splitRanges len m o fuel start ≠ [] ∧
      (splitRanges len m o fuel start).head? = some (start, min (start + m) len) ∧
      ((splitRanges len m o fuel start).getLast?).map Prod.snd = some len ∧
      (∀ r ∈ splitRanges len m o fuel start, r.1 < r.2 ∧ r.2 = min (r.1 + m) len) ∧
      List.Chain' (fun a b => b.1 + o = a.2 ∧ a.1 < b.1 ∧ a.2 < b.2)
        (splitRanges len m o fuel start) ∧
      (∀ i, start ≤ i → i < len →
        ∃ r ∈ splitRanges len m o fuel start, r.1 ≤ i ∧ i < r.2) ∧
      (splitRanges len m o fuel start).length
        = (len - start - m + (m - o) - 1) / (m - o) + 1 := by
  intro fuel
  induction fuel with
  | zero => intro start h1 h2; omega
  | succ f ih =>
    intro start hstart hfuel
    by_cases he : min (start + m) len = len
    · have hrs : splitRanges len m o (f + 1) start = [(start, len)] := by
        simp [splitRanges, hstart, he]
      rw [hrs]
      have hlen : len ≤ start + m := by omega
      have hymz : len - start - m = 0 := by omega
      refine ⟨by simp, by simp [he], by simp, ?_, ?_, ?_, ?_⟩
      · intro r hr
        simp only [List.mem_singleton] at hr
        subst hr
        exact ⟨hstart, by omega⟩
      · simp
      · intro i hi hilen
        exact ⟨(start, len), by simp, hi, hilen⟩
      · simp only [List.length_singleton, hymz]
        have : (0 + (m - o) - 1) / (m - o) = 0 := Nat.div_eq_of_lt (by omega)
        omega
    · have hmlt : start + m < len := by omega
      have hmin : min (start + m) len = start + m := by omega
      have hne : start + m ≠ len := by omega
      have hrs : splitRanges len m o (f + 1) start
          = (start, start + m) :: splitRanges len m o f (start + m - o) := by
        simp [splitRanges, hstart, he, hmin, hne]
      have hstart2 : start + m - o < len := by omega
      have hfuel2 : len - (start + m - o) ≤ f := by omega
      obtain ⟨h1, h2, h3, h4, h5, h6, h7⟩ := ih (start + m - o) hstart2 hfuel2
      rw [hrs]
      constructor
      · simp
      constructor
      · simp [hmin]
      constructor
      · obtain ⟨b, t, hbt⟩ := List.exists_cons_of_ne_nil h1
        rw [hbt] at h3 ⊢
        simpa using h3
      constructor
      · intro r hr
        rcases List.mem_cons.mp hr with hr | hr
        · subst hr
          exact ⟨by omega, by omega⟩
        · exact h4 r hr
      constructor
      · rw [List.chain'_cons']
        refine ⟨?_, h5⟩
        intro b hb
        rw [h2] at hb
        simp only [Option.mem_def, Option.some.injEq] at hb
        subst hb
        refine ⟨by omega, by omega, ?_⟩
        simp only [lt_min_iff]
        omega
      constructor
      · intro i hi hilen
        by_cases hcase : i < start + m
        · exact ⟨(start, start + m), by simp, hi, hcase⟩
        · obtain ⟨r, hr, hr1, hr2⟩ := h6 i (by omega) hilen
          exact ⟨r, List.mem_cons_of_mem _ hr, hr1, hr2⟩
      · simp only [List.length_cons, h7]
        -- window-count arithmetic: with y = len - start - m ≥ 1 and s = m - o ≥ 1,
        -- (y + s - 1) / s = ((y - s) + s - 1) / s + 1
        have hs1 : 1 ≤ m - o := by omega
        have hy1 : 1 ≤ len - start - m := by omega
        have hy' : len - (start + m - o) - m = (len - start - m) - (m - o) := by omega
        rw [hy']
        have lhs_eq : len - start - m + (m - o) - 1 = (len - start - m - 1) + (m - o) := by
          omega
        rw [lhs_eq, Nat.add_div_right _ (by omega)]
        by_cases hys : len - start - m ≤ m - o
        · have hz : len - start - m - (m - o) = 0 := by omega
          rw [hz]
          have h0 : (0 + (m - o) - 1) / (m - o) = 0 := Nat.div_eq_of_lt (by omega)
          have h0' : (len - start - m - 1) / (m - o) = 0 := Nat.div_eq_of_lt (by omega)
          omega
        · have hrw : len - start - m - (m - o) + (m - o) - 1
              = (len - start - m - 1 - (m - o)) + (m - o) := by omega
          rw [hrw, Nat.add_div_right _ (by omega)]
          have hrw2 : len - start - m - 1 = (len - start - m - 1 - (m - o)) + (m - o) := by
            omega
          rw [hrw2, Nat.add_div_right _ (by omega)]
          have hcanc : len - start - m - 1 - (m - o) + (m - o) - (m - o)
              = len - start - m - 1 - (m - o) := by omega
          rw [hcanc]

/-- The identity codec on token lists, used to run the chunker on concrete
token sequences. -/
def idCodec : TokenCodec (List Nat) where
  encode := fun t => t
  decode := fun t => t

/-- C2: for every text and valid `(max_tokens, overlap_tokens)` with
`count_tokens t > max_tokens`, `split_by_tokens` returns the decodings of
consecutive token windows: no token is dropped, consecutive windows overlap in
exactly `overlap_tokens` token positions, the last window ends at the final
token, and the number of segments is `ceil((len - overlap) / (max - overlap))`
(in particular 4 segments for a 25-token input with `max_tokens = 10`,
`overlap = 3`). -/
theorem tokenChunker_windows_correct {σ : Type} (codec : TokenCodec σ) (text : σ)
    (max_tokens overlap_tokens : Int)
    (hm : 0 < max_tokens) (ho : 0 ≤ overlap_tokens) (hlt : overlap_tokens < max_tokens)
    (hbig : max_tokens < (count_tokens codec text : Int)) :
    ∃ rs : List (Nat × Nat),
      split_by_tokens codec text max_tokens overlap_tokens
        = .ok (rs.map fun r => codec.decode
            (((codec.encode text).drop r.1).take (r.2 - r.1))) ∧
      rs ≠ [] ∧
      (∀ i < (codec.encode text).length, ∃ r ∈ rs, r.1 ≤ i ∧ i < r.2) ∧
      List.Chain' (fun a b => b.1 + overlap_tokens.toNat = a.2 ∧ a.1 < b.1 ∧ a.2 < b.2) rs ∧
      (rs.getLast?).map Prod.snd = some (codec.encode text).length ∧
      rs.length = ((codec.encode text).length - overlap_tokens.toNat
          + (max_tokens.toNat - overlap_tokens.toNat) - 1)
          / (max_tokens.toNat - overlap_tokens.toNat) := by
  set tokens := codec.encode text with htokens
  have hlen : max_tokens.toNat < tokens.length := by
    simp only [count_tokens, ← htokens] at hbig
    omega
  have hoNat : overlap_tokens.toNat < max_tokens.toNat := by omega
  have hstart : 0 < tokens.length := by omega
  have hfuel : tokens.length - 0 ≤ tokens.length + 1 := by omega
  obtain ⟨h1, h2, h3, h4, h5, h6, h7⟩ :=
    splitRanges_spec tokens.length max_tokens.toNat overlap_tokens.toNat hoNat
      (tokens.length + 1) 0 hstart hfuel
  refine ⟨splitRanges tokens.length max_tokens.toNat overlap_tokens.toNat
      (tokens.length + 1) 0, ?_, h1, ?_, h5, h3, ?_⟩
  · have hguard : ¬ ((tokens.length : Int) ≤ max_tokens) := by omega
    simp only [split_by_tokens, if_neg (by omega : ¬ max_tokens ≤ 0),
      if_neg (by omega : ¬ overlap_tokens < 0),
      if_neg (by omega : ¬ max_tokens ≤ overlap_tokens), ← htokens, if_neg hguard,
      splitLoop_eq_map_ranges, List.map_map]
    rfl
  · intro i hi
    exact h6 i (Nat.zero_le i) hi
  · rw [h7]
    have hs1 : 1 ≤ max_tokens.toNat - overlap_tokens.toNat := by omega
    have hrw : tokens.length - overlap_tokens.toNat
          + (max_tokens.toNat - overlap_tokens.toNat) - 1
        = (tokens.length - 0 - max_tokens.toNat
            + (max_tokens.toNat - overlap_tokens.toNat) - 1)
          + (max_tokens.toNat - overlap_tokens.toNat) := by omega
    rw [hrw, Nat.add_div_right _ (by omega)]

/-- Closed instance of C2 at the spec scenario: `max_tokens = 10`,
`overlap = 3`, a 25-token input; additionally checks that exactly 4 segments
are produced. -/
theorem tokenChunker_windows_correct_witness :
    (∃ rs : List (Nat × Nat),
      split_by_tokens idCodec (List.range 25) 10 3
        = .ok (rs.map fun r => idCodec.decode
            (((idCodec.encode (List.range 25)).drop r.1).take (r.2 - r.1))) ∧
      rs ≠ [] ∧
      (∀ i < (idCodec.encode (List.range 25)).length, ∃ r ∈ rs, r.1 ≤ i ∧ i < r.2) ∧
      List.Chain' (fun a b => b.1 + (3 : Int).toNat = a.2 ∧ a.1 < b.1 ∧ a.2 < b.2) rs ∧
      (rs.getLast?).map Prod.snd = some (idCodec.encode (List.range 25)).length ∧
      rs.length = ((idCodec.encode (List.range 25)).length - (3 : Int).toNat
          + ((10 : Int).toNat - (3 : Int).toNat) - 1)
          / ((10 : Int).toNat - (3 : Int).toNat)) ∧
    (split_by_tokens idCodec (List.range 25) 10 3).toOption.map List.length = some 4 :=
  ⟨tokenChunker_windows_correct idCodec (List.range 25) 10 3
    (by decide) (by decide) (by decide) (by decide), by decide⟩

/-- C7: invalid chunk configurations (`max_tokens ≤ 0`, `overlap_tokens < 0`,
or `overlap_tokens ≥ max_tokens`) make `split_by_tokens` fail with an error
(the source raises `ValueError`, the spec's `InvalidChunkConfig`) for every
input text. -/
theorem tokenChunker_invalid_config {σ : Type} (codec : TokenCodec σ) (text : σ)
    (max_tokens overlap_tokens : Int)
    (h : max_tokens ≤ 0 ∨ overlap_tokens < 0 ∨ max_tokens ≤ overlap_tokens) :
    ∃ msg, split_by_tokens codec text max_tokens overlap_tokens = .error msg := by
  by_cases h1 : max_tokens ≤ 0
  · exact ⟨"max_tokens must be positive", by simp [split_by_tokens, h1]⟩
  by_cases h2 : overlap_tokens < 0
  · exact ⟨"overlap_tokens cannot be negative", by simp [split_by_tokens, h1, h2]⟩
  have h3 : max_tokens ≤ overlap_tokens := by tauto
  exact ⟨"overlap_tokens must be smaller than max_tokens",
    by simp [split_by_tokens, h1, h2, h3]⟩

/-- Closed instance of C7 at `max_tokens = 5`, `overlap_tokens = 5`. -/
theorem tokenChunker_invalid_config_witness :
    ∃ msg, split_by_tokens idCodec [0, 1, 2] 5 5 = .error msg :=
  tokenChunker_invalid_config idCodec [0, 1, 2] 5 5 (by decide)

/-- C8: whenever the token count of the text fits into `max_tokens`, a valid
call to `split_by_tokens` returns exactly `[text]`, the input unchanged. -/
theorem tokenChunker_passthrough {σ : Type} (codec : TokenCodec σ) (text : σ)
    (max_tokens overlap_tokens : Int)
    (hm : 0 < max_tokens) (ho : 0 ≤ overlap_tokens) (hlt : overlap_tokens < max_tokens)
    (hfit : (count_tokens codec text : Int) ≤ max_tokens) :
    split_by_tokens codec text max_tokens overlap_tokens = .ok [text] := by
  simp only [count_tokens] at hfit
  simp only [split_by_tokens, if_neg (by omega : ¬ max_tokens ≤ 0),
    if_neg (by omega : ¬ overlap_tokens < 0),
    if_neg (by omega : ¬ max_tokens ≤ overlap_tokens), if_pos hfit]

/-- Closed instance of C8 at a 3-token input with `max_tokens = 5`. -/
theorem tokenChunker_passthrough_witness :
    split_by_tokens idCodec [7, 8, 9] 5 2 = .ok [[7, 8, 9]] :=
  tokenChunker_passthrough idCodec [7, 8, 9] 5 2 (by decide) (by decide) (by decide)
    (by decide)

/-! ## Retry executor (`engines/base.py` lines 46-59, identical code in
`engines/mistral.py` lines 170-183)

The wrapped operation is modelled as a map from the attempt number (1-based)
to that call's outcome; backoff sleeping has no observable effect on the
result and is not modelled.  The pair returned is the outcome together with
the number of invocations performed. -/

inductive RetryOutcome (ε α : Type) where
  | success (value : α)
  | exhausted (operation : String) (attempts : Nat) (cause : ε)
  | assertionFailure
deriving DecidableEq

/-- The `for attempt in range(1, self.retry_attempts + 1)` loop body: call
the operation; on success return immediately, on failure break out when no
attempts remain (the source's `attempt == retry_attempts` test), else move to
the next attempt.  `remaining` counts the attempts still allowed after the
current one, so the loop is structural recursion on it. -/
def retryGo {ε α : Type} (f : Nat → Except ε α) : Nat → Nat → Except ε α × Nat
  | attempt, 0 =>
    match f attempt with
    | .ok v => (.ok v, attempt)
    | .error e => (.error e, attempt)
  | attempt, r + 1 =>
    match f attempt with
    | .ok v => (.ok v, attempt)
    | .error _ => retryGo f (attempt + 1) r

/-- `_request_with_retry`: with `retry_attempts = 0` the loop body never runs
and the `assert last_exc is not None` fails; otherwise the loop runs from
attempt 1 with `retry_attempts - 1` further attempts allowed, and a final
failure is wrapped into the aggregate error naming the operation and the
attempt count.  The second component is the number of invocations made. -/
def requestWithRetry {ε α : Type} (f : Nat → Except ε α) (attempts : Nat)
    (operation : String) : RetryOutcome ε α × Nat :=
  if attempts = 0 then (.assertionFailure, 0)
  else
    match retryGo f 1 (attempts - 1) with
    | (.ok v, k) => (.success v, k)
    | (.error e, k) => (.exhausted operation attempts e, k)

theorem retryGo_all_fail {ε α : Type} (f : Nat → Except ε α) :
    ∀ remaining attempt,
      (∀ i, attempt ≤ i → i ≤ attempt + remaining → ∃ e, f i = .error e) →
      ∃ e, f (attempt + remaining) = .error e ∧
        retryGo f attempt remaining = (.error e, attempt + remaining) := by
  intro remaining
  induction remaining with
  | zero =>
    intro attempt hfail
    obtain ⟨e, he⟩ := hfail attempt (le_refl _) (by omega)
    exact ⟨e, by simpa using he, by simp [retryGo, he]⟩
  | succ r ih =>
    intro attempt hfail
    obtain ⟨e, he⟩ := hfail attempt (le_refl _) (by omega)
    obtain ⟨e', he', hgo⟩ := ih (attempt + 1) (fun i h1 h2 => hfail i (by omega) (by omega))
    refine ⟨e', by rw [show attempt + (r + 1) = attempt + 1 + r by omega]; exact he', ?_⟩
    rw [show attempt + (r + 1) = attempt + 1 + r by omega, ← hgo]
    simp [retryGo, he]

theorem retryGo_success {ε α : Type} (f : Nat → Except ε α) :
    ∀ remaining attempt k v, attempt ≤ k → k ≤ attempt + remaining →
      f k = .ok v → (∀ i, attempt ≤ i → i < k → ∃ e, f i = .error e) →
      retryGo f attempt remaining = (.ok v, k) := by
  intro remaining
  induction remaining with
  | zero =>
    intro attempt k v h1 h2 hok _
    have : k = attempt := by omega
    subst this
    simp [retryGo, hok]
  | succ r ih =>
    intro attempt k v h1 h2 hok hfail
    by_cases hk : k = attempt
    · subst hk
      simp [retryGo, hok]
    · obtain ⟨e, he⟩ := hfail attempt (le_refl _) (by omega)
      have hrec := ih (attempt + 1) k v (by omega) (by omega) hok
        (fun i hi1 hi2 => hfail i (by omega) hi2)
      simp [retryGo, he, hrec]

/-- C3: with `attempts = N ≥ 1`, an operation failing on every call is
invoked exactly `N` times and the executor returns the aggregate exhaustion
error wrapping the failure of the final (`N`-th) attempt; an operation
succeeding on its `k`-th call (`k ≤ N`, all earlier calls failing) is invoked
exactly `k` times and its success value is returned. -/
theorem retryExecutor_counts {ε α : Type} (f : Nat → Except ε α) (N : Nat)
    (operation : String) (hN : 1 ≤ N) :
    ((∀ i, 1 ≤ i → i ≤ N → ∃ e, f i = .error e) →
      ∃ e, f N = .error e ∧
        requestWithRetry f N operation = (.exhausted operation N e, N)) ∧
    (∀ k v, 1 ≤ k → k ≤ N → f k = .ok v →
      (∀ i, 1 ≤ i → i < k → ∃ e, f i = .error e) →
      requestWithRetry f N operation = (.success v, k)) := by
  have hN0 : N ≠ 0 := by omega
  constructor
  · intro hfail
    obtain ⟨e, he, hgo⟩ := retryGo_all_fail f (N - 1) 1
      (fun i h1 h2 => hfail i h1 (by omega))
    rw [show 1 + (N - 1) = N by omega] at he hgo
    exact ⟨e, he, by simp [requestWithRetry, hN0, hgo]⟩
  · intro k v hk1 hkN hok hfail
    have hgo := retryGo_success f (N - 1) 1 k v hk1 (by omega) hok
      (fun i h1 h2 => hfail i h1 h2)
    simp [requestWithRetry, hN0, hgo]

/-- Closed instance of C3 with `N = 3`: an always-failing operation is called
3 times and exhausts; an operation succeeding on call 2 is called twice. -/
theorem retryExecutor_counts_witness :
    (∃ e, (fun _ => (.error "boom" : Except String Nat)) 3 = .error e ∧
      requestWithRetry (fun _ => (.error "boom" : Except String Nat)) 3 "op"
        = (.exhausted "op" 3 e, 3)) ∧
    requestWithRetry (fun i => if i = 2 then (.ok 42 : Except String Nat)
        else .error "boom") 3 "op" = (.success 42, 2) := by
  refine ⟨?_, ?_⟩
  · exact (retryExecutor_counts (fun _ => (.error "boom" : Except String Nat)) 3 "op"
      (by decide)).1 (fun i _ _ => ⟨"boom", rfl⟩)
  · exact (retryExecutor_counts (fun i => if i = 2 then (.ok 42 : Except String Nat)
        else .error "boom") 3 "op" (by decide)).2 2 42 (by decide) (by decide) rfl
      (fun i h1 h2 => by interval_cases i; exact ⟨"boom", rfl⟩)

/-! ## Chunk planner (`engines/mistral.py`, `_prepare_chunks`, lines 87-126)

A paginated document is modelled by its list of per-page token estimates
`tpp` (index `i` = 0-based page `i`, value = `count_tokens` of the page's
extracted text; a page whose text cannot be extracted contributes 0).  The
planner's output is modelled by the page ranges of the produced chunks:
`some (first, last)` is a chunk tagged with the inclusive 1-based page range,
`none` a whole-file chunk without a range. -/

/-- The inner `while end < total_pages and (end - start) < max_pages` loop:
accumulate page token estimates, advance `end`, and break once the running
sum reaches the token ceiling.  Returns the final `end`.  `fuel` bounds the
iterations; `tpp.length - endIdx` is always enough. -/
def scanEnd (tpp : List Nat) (maxPages maxTok : Nat) (start : Nat) :
    Nat → Nat → Nat → Nat
  | 0, endIdx, _ => endIdx
  | fuel + 1, endIdx, budget =>
    if endIdx < tpp.length ∧ endIdx - start < maxPages then
      if maxTok ≤ budget + tpp.getD endIdx 0 then endIdx + 1
      else scanEnd tpp maxPages maxTok start fuel (endIdx + 1) (budget + tpp.getD endIdx 0)
    else endIdx

/-- The outer `while start < total_pages` loop of `_prepare_chunks`: take the
next page group `[start, e)`, record its 1-based page range `(start+1, e)`,
and continue at `e`.  An empty page group makes the source crash on
`page_indices[0]` (only possible with `max_pages_per_chunk ≤ 0`), modelled as
an error. -/
def chunkLoop (tpp : List Nat) (maxPages maxTok : Nat) :
    Nat → Nat → Except String (List (Nat × Nat))
  | 0, _ => .error "chunk loop fuel exhausted"
  | fuel + 1, start =>
    if start < tpp.length then
      let e := scanEnd tpp maxPages maxTok start (tpp.length - start) start 0
      if e = start then .error "IndexError: empty page group"
      else
        match chunkLoop tpp maxPages maxTok fuel e with
        | .error msg => .error msg
        | .ok rest => .ok ((start + 1, e) :: rest)
    else .ok []

/-- `_prepare_chunks` restricted to its page-range output: a zero-page
document gives one range-less chunk; a document within both budgets gives a
single chunk covering all pages; otherwise the greedy grouping loop runs. -/
def prepareChunks (tpp : List Nat) (maxPages maxTok : Nat) :
    Except String (List (Option (Nat × Nat))) :=
  if tpp.length = 0 then .ok [none]
  else if tpp.length ≤ maxPages ∧ tpp.sum ≤ maxTok then .ok [some (1, tpp.length)]
  else
    match chunkLoop tpp maxPages maxTok (tpp.length + 1) 0 with
    | .error msg => .error msg
    | .ok rs => .ok (rs.map some)

/-- `rs` is a gapless sequence of inclusive 1-based page ranges starting
right after page `start` and ending exactly at page `total`. -/
def BlocksFrom (total : Nat) : Nat → List (Nat × Nat) → Prop
  | start, [] => start = total
  | start, r :: rest => r.1 = start + 1 ∧ start < r.2 ∧ r.2 ≤ total ∧ BlocksFrom total r.2 rest

theorem scanEnd_le_start {tpp : List Nat} {maxPages maxTok start : Nat} :
    ∀ fuel endIdx budget, endIdx ≤ scanEnd tpp maxPages maxTok start fuel endIdx budget := by
  intro fuel
  induction fuel with
  | zero => intro endIdx budget; simp [scanEnd]
  | succ f ih =>
    intro endIdx budget
    simp only [scanEnd]
    by_cases h : endIdx < tpp.length ∧ endIdx - start < maxPages
    · rw [if_pos h]
      by_cases h2 : maxTok ≤ budget + tpp.getD endIdx 0
      · rw [if_pos h2]; omega
      · rw [if_neg h2]
        exact le_trans (by omega) (ih (endIdx + 1) (budget + tpp.getD endIdx 0))
    · rw [if_neg h]

theorem scanEnd_le_length {tpp : List Nat} {maxPages maxTok start : Nat} :
    ∀ fuel endIdx budget, endIdx ≤ tpp.length →
      scanEnd tpp maxPages maxTok start fuel endIdx budget ≤ tpp.length := by
  intro fuel
  induction fuel with
  | zero => intro endIdx budget h; simpa [scanEnd] using h
  | succ f ih =>
    intro endIdx budget h
    simp only [scanEnd]
    by_cases h1 : endIdx < tpp.length ∧ endIdx - start < maxPages
    · rw [if_pos h1]
      by_cases h2 : maxTok ≤ budget + tpp.getD endIdx 0
      · rw [if_pos h2]; omega
      · rw [if_neg h2]
        exact ih (endIdx + 1) (budget + tpp.getD endIdx 0) (by omega)
    · rw [if_neg h1]; exact h

theorem scanEnd_progress {tpp : List Nat} {maxPages maxTok start : Nat}
    (hstart : start < tpp.length) (hmp : 1 ≤ maxPages) :
    ∀ fuel, 1 ≤ fuel → start + 1 ≤ scanEnd tpp maxPages maxTok start fuel start 0 := by
  intro fuel hfuel
  obtain ⟨f, rfl⟩ : ∃ f, fuel = f + 1 := ⟨fuel - 1, by omega⟩
  have hcond : start < tpp.length ∧ start - start < maxPages := ⟨hstart, by omega⟩
  simp only [scanEnd]
  rw [if_pos hcond]
  by_cases h2 : maxTok ≤ 0 + tpp.getD start 0
  · rw [if_pos h2]
  · rw [if_neg h2]
    exact scanEnd_le_start f (start + 1) (0 + tpp.getD start 0)

theorem chunkLoop_blocks {tpp : List Nat} {maxPages maxTok : Nat} (hmp : 1 ≤ maxPages) :
    ∀ fuel start, start ≤ tpp.length → tpp.length - start < fuel →
      ∃ rs, chunkLoop tpp maxPages maxTok fuel start = .ok rs ∧
        BlocksFrom tpp.length start rs := by
  intro fuel
  induction fuel with
  | zero => intro start h1 h2; omega
  | succ f ih =>
    intro start h1 h2
    by_cases hstart : start < tpp.length
    · have he1 : start + 1 ≤ scanEnd tpp maxPages maxTok start (tpp.length - start) start 0 :=
        scanEnd_progress hstart hmp _ (by omega)
      have he2 : scanEnd tpp maxPages maxTok start (tpp.length - start) start 0 ≤ tpp.length :=
        scanEnd_le_length _ _ _ (by omega)
      obtain ⟨rest, hrest, hblocks⟩ :=
        ih (scanEnd tpp maxPages maxTok start (tpp.length - start) start 0) he2 (by omega)
      refine ⟨(start + 1, scanEnd tpp maxPages maxTok start (tpp.length - start) start 0)
        :: rest, ?_, ?_⟩
      · simp only [chunkLoop, hstart, if_true, if_neg (by omega : ¬ scanEnd tpp maxPages
          maxTok start (tpp.length - start) start 0 = start), hrest]
      · exact ⟨rfl, by omega, he2, hblocks⟩
    · have : start = tpp.length := by omega
      subst this
      exact ⟨[], by simp [chunkLoop, hstart], by simp [BlocksFrom]⟩

theorem blocksFrom_bounds {total : Nat} :
    ∀ {rs : List (Nat × Nat)} {s : Nat}, BlocksFrom total s rs →
      ∀ r ∈ rs, s + 1 ≤ r.1 ∧ r.1 ≤ r.2 ∧ r.2 ≤ total := by
  intro rs
  induction rs with
  | nil => intro s _ r hr; simp at hr
  | cons a rest ih =>
    intro s hb r hr
    obtain ⟨ha1, ha2, ha3, hrest⟩ := hb
    rcases List.mem_cons.mp hr with hr | hr
    · subst hr; omega
    · have := ih hrest r hr
      omega

theorem blocksFrom_pairwise {total : Nat} :
    ∀ {rs : List (Nat × Nat)} {s : Nat}, BlocksFrom total s rs →
      List.Pairwise (fun a b => a.2 < b.1) rs := by
  intro rs
  induction rs with
  | nil => intro s _; simp
  | cons a rest ih =>
    intro s hb
    obtain ⟨ha1, ha2, ha3, hrest⟩ := hb
    refine List.Pairwise.cons ?_ (ih hrest)
    intro b hb'
    have := blocksFrom_bounds hrest b hb'
    omega

theorem blocksFrom_cover {total : Nat} :
    ∀ {rs : List (Nat × Nat)} {s : Nat}, BlocksFrom total s rs →
      ∀ p, (s + 1 ≤ p ∧ p ≤ total) ↔ ∃ r ∈ rs, r.1 ≤ p ∧ p ≤ r.2 := by
  intro rs
  induction rs with
  | nil =>
    intro s hb p
    simp only [BlocksFrom] at hb
    subst hb
    simp only [List.not_mem_nil, false_and, exists_false, iff_false]
    omega
  | cons a rest ih =>
    intro s hb p
    obtain ⟨ha1, ha2, ha3, hrest⟩ := hb
    constructor
    · intro ⟨hp1, hp2⟩
      by_cases hcase : p ≤ a.2
      · exact ⟨a, List.mem_cons_self a rest, by omega, hcase⟩
      · obtain ⟨r, hr, hr1, hr2⟩ := (ih hrest p).mp ⟨by omega, hp2⟩
        exact ⟨r, List.mem_cons_of_mem _ hr, hr1, hr2⟩
    · intro ⟨r, hr, hr1, hr2⟩
      rcases List.mem_cons.mp hr with hr | hr
      · subst hr; omega
      · have hmem := blocksFrom_bounds hrest r hr
        have := (ih hrest p).mpr ⟨r, hr, hr1, hr2⟩
        omega

/-- C4: for every paginated document with at least one page and positive page
and token budgets, the chunk plan's page ranges are pairwise disjoint, sorted
strictly ascending, within `1..total_pages`, and cover every page exactly
once. -/
theorem chunkPlanner_partition (tpp : List Nat) (maxPages maxTok : Nat)
    (htotal : 1 ≤ tpp.length) (hmp : 1 ≤ maxPages) (_hmt : 1 ≤ maxTok) :
    ∃ rs : List (Nat × Nat),
      prepareChunks tpp maxPages maxTok = .ok (rs.map some) ∧
      List.Pairwise (fun a b => a.2 < b.1) rs ∧
      (∀ r ∈ rs, 1 ≤ r.1 ∧ r.1 ≤ r.2 ∧ r.2 ≤ tpp.length) ∧
      (∀ p, (1 ≤ p ∧ p ≤ tpp.length) ↔ ∃ r ∈ rs, r.1 ≤ p ∧ p ≤ r.2) := by
  have h0 : ¬ tpp.length = 0 := by omega
  by_cases hfast : tpp.length ≤ maxPages ∧ tpp.sum ≤ maxTok
  · refine ⟨[(1, tpp.length)], ?_, ?_, ?_, ?_⟩
    · simp [prepareChunks, h0, hfast]
    · simp
    · intro r hr
      simp only [List.mem_singleton] at hr
      subst hr
      exact ⟨le_refl _, htotal, le_refl _⟩
    · intro p
      constructor
      · intro ⟨h1, h2⟩
        exact ⟨(1, tpp.length), by simp, h1, h2⟩
      · intro ⟨r, hr, h1, h2⟩
        simp only [List.mem_singleton] at hr
        subst hr
        exact ⟨h1, h2⟩
  · obtain ⟨rs, hloop, hblocks⟩ :=
      @chunkLoop_blocks tpp maxPages maxTok hmp (tpp.length + 1) 0 (by omega) (by omega)
    refine ⟨rs, ?_, blocksFrom_pairwise hblocks, ?_, ?_⟩
    · simp [prepareChunks, h0, hfast, hloop]
    · intro r hr
      have := blocksFrom_bounds hblocks r hr
      omega
    · intro p
      simpa using blocksFrom_cover hblocks p

/-- Closed instance of C4 at the spec's end-to-end scenario: 10 pages,
`max_pages_per_chunk = 4`, a token ceiling never reached; additionally checks
the planner emits exactly the ranges `(1,4), (5,8), (9,10)`. -/
theorem chunkPlanner_partition_witness :
    (∃ rs : List (Nat × Nat),
      prepareChunks [5, 5, 5, 5, 5, 5, 5, 5, 5, 5] 4 100 = .ok (rs.map some) ∧
      List.Pairwise (fun a b => a.2 < b.1) rs ∧
      (∀ r ∈ rs, 1 ≤ r.1 ∧ r.1 ≤ r.2 ∧
        r.2 ≤ ([5, 5, 5, 5, 5, 5, 5, 5, 5, 5] : List Nat).length) ∧
      (∀ p, (1 ≤ p ∧ p ≤ ([5, 5, 5, 5, 5, 5, 5, 5, 5, 5] : List Nat).length)
        ↔ ∃ r ∈ rs, r.1 ≤ p ∧ p ≤ r.2)) ∧
    prepareChunks [5, 5, 5, 5, 5, 5, 5, 5, 5, 5] 4 100
      = .ok [some (1, 4), some (5, 8), some (9, 10)] :=
  ⟨chunkPlanner_partition [5, 5, 5, 5, 5, 5, 5, 5, 5, 5] 4 100
    (by decide) (by decide) (by decide), by decide⟩

/-! ## Chunk stitcher (`engines/mistral.py`, `convert`, lines 51-73)

Each engine call returns a list of page objects with chunk-local indices; the
stitch loop computes a per-chunk offset (`first - 1` when the chunk declares
a page range, else the number of pages accumulated so far), shifts every
page's index by it, and finally sorts all pages by global index ascending
(`sorted` is stable; `List.insertionSort` models it). -/

structure PageObject where
  index : Nat
  markdown : String
deriving DecidableEq

structure ChunkResult where
  pageRange : Option (Nat × Nat)
  pages : List PageObject
deriving DecidableEq

/-- The reindexing loop of `convert`: `page_offset = (chunk.page_range[0] - 1)
if chunk.page_range else len(all_pages)`, then every page's index is shifted
by the offset and appended to the accumulator. -/
def reindexPages : List ChunkResult → List PageObject → List PageObject
  | [], acc => acc
  | c :: cs, acc =>
    let off := match c.pageRange with
      | some r => r.1 - 1
      | none => acc.length
    reindexPages cs (acc ++ c.pages.map fun p => { p with index := off + p.index })

/-- Global index order on page objects (the `sorted(..., key=lambda page:
page.index)` ordering). -/
def pageLE (p q : PageObject) : Prop := p.index ≤ q.index

instance : DecidableRel pageLE := fun p q => Nat.decLe p.index q.index

instance : IsTotal PageObject pageLE := ⟨fun a b => Nat.le_total a.index b.index⟩

instance : IsTrans PageObject pageLE := ⟨fun _ _ _ h1 h2 => Nat.le_trans h1 h2⟩

/-- The merged page list of the combined response: all reindexed pages sorted
by global index ascending. -/
def stitchPages (cs : List ChunkResult) : List PageObject :=
  List.insertionSort pageLE (reindexPages cs [])

/-- Offset-indexed form of the reindexing loop: `n` is the number of pages
already placed by prior chunks. -/
def reindexFrom : List ChunkResult → Nat → List PageObject
  | [], _ => []
  | c :: cs, n =>
    let off := match c.pageRange with
      | some r => r.1 - 1
      | none => n
    (c.pages.map fun p => { p with index := off + p.index })
      ++ reindexFrom cs (n + c.pages.length)

/-- Number of page objects carried by the first `j` chunks. -/
def priorPages (cs : List ChunkResult) (j : Nat) : Nat :=
  ((cs.take j).map fun c => c.pages.length).sum

theorem reindexPages_eq_append (cs : List ChunkResult) :
    ∀ acc, reindexPages cs acc = acc ++ reindexFrom cs acc.length := by
  induction cs with
  | nil => intro acc; simp [reindexPages, reindexFrom]
  | cons c cs ih =>
    intro acc
    simp only [reindexPages, reindexFrom, ih, List.append_assoc, List.length_append,
      List.length_map]

theorem stitchPages_sorted (cs : List ChunkResult) :
    List.Sorted pageLE (stitchPages cs) :=
  List.sorted_insertionSort pageLE (reindexPages cs [])

theorem stitchPages_perm (cs : List ChunkResult) :
    (stitchPages cs).Perm (reindexPages cs []) :=
  List.perm_insertionSort pageLE (reindexPages cs [])

theorem reindexFrom_getElem :
    ∀ (cs : List ChunkResult) (n : Nat) (j : Nat) (hj : j < cs.length)
      (k : Nat) (hk : k < (cs.get ⟨j, hj⟩).pages.length),
      (reindexFrom cs n)[priorPages cs j + k]? =
        some { (cs.get ⟨j, hj⟩).pages.get ⟨k, hk⟩ with
          index := (match (cs.get ⟨j, hj⟩).pageRange with
            | some r => r.1 - 1
            | none => n + priorPages cs j)
              + ((cs.get ⟨j, hj⟩).pages.get ⟨k, hk⟩).index } := by
  intro cs
  induction cs with
  | nil => intro n j hj; simp at hj
  | cons c cs ih =>
    intro n j hj k hk
    match j with
    | 0 =>
      have hprior : priorPages (c :: cs) 0 = 0 := by simp [priorPages]
      simp only [List.get] at hk ⊢
      rw [hprior]
      simp only [reindexFrom, Nat.zero_add, Nat.add_zero]
      rw [List.getElem?_append_left (by simpa using hk)]
      rw [List.getElem?_map, List.getElem?_eq_getElem (by simpa using hk)]
      simp [List.get]
    | j + 1 =>
      have hprior : priorPages (c :: cs) (j + 1) = c.pages.length + priorPages cs j := by
        simp [priorPages]
      have hj' : j < cs.length := by simpa using hj
      have hk' : k < (cs.get ⟨j, hj'⟩).pages.length := by simpa [List.get] using hk
      have hrec := ih (n + c.pages.length) j hj' k hk'
      simp only [List.get] at hk ⊢
      rw [hprior]
      simp only [reindexFrom]
      rw [List.getElem?_append_right (by simp only [List.length_map]; omega)]
      simp only [List.length_map]
      rw [show c.pages.length + priorPages cs j + k - c.pages.length
          = priorPages cs j + k by omega]
      rw [show n + (c.pages.length + priorPages cs j) = n + c.pages.length + priorPages cs j
          by omega]
      exact hrec

/-- C5: under the claim's conditions (chunk-local indices dense from 0, page
count matching the declared range), stitching assigns the `k`-th local page
of a chunk with range `(first, last)` the global index `first - 1 + k`,
assigns pages of a range-less chunk their local index offset by the pages
already placed by prior chunks, and emits all pages sorted by global index
ascending (a permutation of the reindexed pages). -/
theorem chunkStitcher_reindex (cs : List ChunkResult)
    (hdense : ∀ c ∈ cs, ∀ k, (hk : k < c.pages.length) → (c.pages.get ⟨k, hk⟩).index = k)
    (_hcount : ∀ c ∈ cs, ∀ f l, c.pageRange = some (f, l) → c.pages.length = l + 1 - f) :
    List.Sorted pageLE (stitchPages cs) ∧
    (stitchPages cs).Perm (reindexPages cs []) ∧
    (∀ j, (hj : j < cs.length) → ∀ k, (hk : k < (cs.get ⟨j, hj⟩).pages.length) →
      (reindexPages cs [])[priorPages cs j + k]? =
        some { (cs.get ⟨j, hj⟩).pages.get ⟨k, hk⟩ with
          index := match (cs.get ⟨j, hj⟩).pageRange with
            | some r => r.1 - 1 + k
            | none => priorPages cs j + k }) := by
  refine ⟨stitchPages_sorted cs, stitchPages_perm cs, ?_⟩
  intro j hj k hk
  have hidx := hdense (cs.get ⟨j, hj⟩) (cs.get_mem j hj) k hk
  rw [reindexPages_eq_append cs []]
  simp only [List.length_nil, List.nil_append]
  rw [reindexFrom_getElem cs 0 j hj k hk]
  cases hrange : (cs.get ⟨j, hj⟩).pageRange with
  | none => simp [hrange]; exact hidx
  | some r => simp [hrange]; exact hidx

/-- Closed instance of C5 at the spec scenario: ranges `(1,3)` and `(4,6)`
with 3 pages each; additionally checks the stitched global indices are
exactly `0..5`. -/
theorem chunkStitcher_reindex_witness :
    (List.Sorted pageLE (stitchPages
        [⟨some (1, 3), [⟨0, "a"⟩, ⟨1, "b"⟩, ⟨2, "c"⟩]⟩,
         ⟨some (4, 6), [⟨0, "d"⟩, ⟨1, "e"⟩, ⟨2, "f"⟩]⟩]) ∧
      (stitchPages
        [⟨some (1, 3), [⟨0, "a"⟩, ⟨1, "b"⟩, ⟨2, "c"⟩]⟩,
         ⟨some (4, 6), [⟨0, "d"⟩, ⟨1, "e"⟩, ⟨2, "f"⟩]⟩]).Perm
        (reindexPages
          [⟨some (1, 3), [⟨0, "a"⟩, ⟨1, "b"⟩, ⟨2, "c"⟩]⟩,
           ⟨some (4, 6), [⟨0, "d"⟩, ⟨1, "e"⟩, ⟨2, "f"⟩]⟩] []) ∧
      (∀ j, (hj : j < ([⟨some (1, 3), [⟨0, "a"⟩, ⟨1, "b"⟩, ⟨2, "c"⟩]⟩,
           ⟨some (4, 6), [⟨0, "d"⟩, ⟨1, "e"⟩, ⟨2, "f"⟩]⟩] : List ChunkResult).length) →
        ∀ k, (hk : k < (([⟨some (1, 3), [⟨0, "a"⟩, ⟨1, "b"⟩, ⟨2, "c"⟩]⟩,
           ⟨some (4, 6), [⟨0, "d"⟩, ⟨1, "e"⟩, ⟨2, "f"⟩]⟩] : List ChunkResult).get
            ⟨j, hj⟩).pages.length) →
        (reindexPages [⟨some (1, 3), [⟨0, "a"⟩, ⟨1, "b"⟩, ⟨2, "c"⟩]⟩,
           ⟨some (4, 6), [⟨0, "d"⟩, ⟨1, "e"⟩, ⟨2, "f"⟩]⟩] [])[priorPages
            [⟨some (1, 3), [⟨0, "a"⟩, ⟨1, "b"⟩, ⟨2, "c"⟩]⟩,
             ⟨some (4, 6), [⟨0, "d"⟩, ⟨1, "e"⟩, ⟨2, "f"⟩]⟩] j + k]? =
          some { (([⟨some (1, 3), [⟨0, "a"⟩, ⟨1, "b"⟩, ⟨2, "c"⟩]⟩,
             ⟨some (4, 6), [⟨0, "d"⟩, ⟨1, "e"⟩, ⟨2, "f"⟩]⟩] : List ChunkResult).get
              ⟨j, hj⟩).pages.get ⟨k, hk⟩ with
            index := match (([⟨some (1, 3), [⟨0, "a"⟩, ⟨1, "b"⟩, ⟨2, "c"⟩]⟩,
               ⟨some (4, 6), [⟨0, "d"⟩, ⟨1, "e"⟩, ⟨2, "f"⟩]⟩] : List ChunkResult).get
                ⟨j, hj⟩).pageRange with
              | some r => r.1 - 1 + k
              | none => priorPages [⟨some (1, 3), [⟨0, "a"⟩, ⟨1, "b"⟩, ⟨2, "c"⟩]⟩,
                  ⟨some (4, 6), [⟨0, "d"⟩, ⟨1, "e"⟩, ⟨2, "f"⟩]⟩] j + k })) ∧
    (stitchPages [⟨some (1, 3), [⟨0, "a"⟩, ⟨1, "b"⟩, ⟨2, "c"⟩]⟩,
        ⟨some (4, 6), [⟨0, "d"⟩, ⟨1, "e"⟩, ⟨2, "f"⟩]⟩]).map PageObject.index
      = [0, 1, 2, 3, 4, 5] := by
  refine ⟨?_, ?_⟩
  · exact chunkStitcher_reindex
      [⟨some (1, 3), [⟨0, "a"⟩, ⟨1, "b"⟩, ⟨2, "c"⟩]⟩,
       ⟨some (4, 6), [⟨0, "d"⟩, ⟨1, "e"⟩, ⟨2, "f"⟩]⟩]
      (by decide)
      (by
        intro c hc f l hfl
        fin_cases hc
        · obtain ⟨rfl, rfl⟩ : 1 = f ∧ 3 = l := by simpa using hfl
          decide
        · obtain ⟨rfl, rfl⟩ : 4 = f ∧ 6 = l := by simpa using hfl
          decide)
  · decide

/-- C1 counterexample: two chunks both declaring page range `(1, 1)` (an
upstream contract violation) stitch into a merged page list with the
duplicated, non-dense global index sequence `[0, 0]`; no error of any kind is
raised. -/
theorem stitcher_silent_duplicate_counterexample :
    (stitchPages [⟨some (1, 1), [⟨0, "a"⟩]⟩, ⟨some (1, 1), [⟨0, "b"⟩]⟩]).map PageObject.index
      = [0, 0] := by decide

/-- C1 (amended): the stitch step performs no consistency check.  For every
input — including those whose reindexing yields duplicate or gapped global
indices — it returns the merged reindexed pages sorted by global index (a
permutation of the reindexed list); no `StitchConsistencyError` (or any
error) is raised and no repair is attempted. -/
theorem stitcher_total_no_consistency_check (cs : List ChunkResult) :
    List.Sorted pageLE (stitchPages cs) ∧ (stitchPages cs).Perm (reindexPages cs []) :=
  ⟨stitchPages_sorted cs, stitchPages_perm cs⟩

/-! ## Orchestrator (`cli.py`, `RunMetrics` lines 37-47, `_should_process`
lines 68-76, `convert` lines 92-158)

A candidate document is modelled by its name, its `stat` outcome (`none` when
the file vanished and `stat` raises `FileNotFoundError`) and its engine
conversion outcome.  Postprocessing and writing are out-of-scope glue,
modelled by recording the written document's name; `log_error` by recording
the message. -/

structure RunMetrics where
  total_candidates : Nat := 0
  skipped_by_since : Nat := 0
  dry_run : Nat := 0
  successes : Nat := 0
  failures : Nat := 0
deriving DecidableEq

def RunMetrics.eligible (m : RunMetrics) : Nat :=
  m.total_candidates - m.skipped_by_since

/-- The counter-partition invariant: every candidate was counted in exactly
one of the four outcome buckets. -/
def RunMetrics.balanced (m : RunMetrics) : Prop :=
  m.total_candidates = m.skipped_by_since + m.dry_run + m.successes + m.failures

structure DocCandidate where
  name : String
  mtime : Option Int
  conversion : Except String String
deriving DecidableEq

/-- `_should_process`: a failed `stat` yields `(False, None)` regardless of
the filter; otherwise process iff no `--since` filter or `mtime >= since`. -/
def shouldProcess (mtime : Option Int) (since : Option Int) : Bool × Option Int :=
  match mtime with
  | none => (false, none)
  | some t =>
    match since with
    | none => (true, some t)
    | some stamp => (decide (stamp ≤ t), some t)

structure RunState where
  metrics : RunMetrics
  written : List String
  errors : List String
deriving DecidableEq

/-- One iteration of the `for source_path in iter_documents(input_dir)` loop
of `convert`: count the candidate, apply the since filter, honour dry-run,
then convert; an engine failure is caught, logged, counted, and processing
moves on; a success is postprocessed, written, and counted. -/
def processDoc (since : Option Int) (dryRun : Bool) (s : RunState) (d : DocCandidate) :
    RunState :=
  let s1 : RunState :=
    { s with metrics :=
      { s.metrics with total_candidates := s.metrics.total_candidates + 1 } }
  if ¬ (shouldProcess d.mtime since).1 then
    { s1 with metrics :=
      { s1.metrics with skipped_by_since := s1.metrics.skipped_by_since + 1 } }
  else if dryRun then
    { s1 with metrics := { s1.metrics with dry_run := s1.metrics.dry_run + 1 } }
  else
    match d.conversion with
    | .error e =>
      { s1 with
        metrics := { s1.metrics with failures := s1.metrics.failures + 1 },
        errors := s1.errors ++ ["Failed to convert " ++ d.name ++ ": " ++ e] }
    | .ok _ =>
      { s1 with
        metrics := { s1.metrics with successes := s1.metrics.successes + 1 },
        written := s1.written ++ [d.name] }

def initialState : RunState := ⟨{}, [], []⟩

/-- The whole document loop of `convert`. -/
def runConvert (since : Option Int) (dryRun : Bool) (docs : List DocCandidate) : RunState :=
  docs.foldl (processDoc since dryRun) initialState

/-- C6: an eligible document whose engine conversion fails is caught: the
failure is logged, the failure counter increments by exactly one, nothing is
written for it, and the loop continues with the remaining documents from the
resulting state — no engine failure terminates the run. -/
theorem orchestrator_isolates_failure (since : Option Int) (ds1 ds2 : List DocCandidate)
    (d : DocCandidate) (s : RunState) (e : String)
    (helig : (shouldProcess d.mtime since).1 = true)
    (hfail : d.conversion = .error e) :
    processDoc since false s d
      = { s with
          metrics := { s.metrics with
            total_candidates := s.metrics.total_candidates + 1,
            failures := s.metrics.failures + 1 },
          errors := s.errors ++ ["Failed to convert " ++ d.name ++ ": " ++ e] } ∧
    runConvert since false (ds1 ++ d :: ds2)
      = ds2.foldl (processDoc since false)
          (processDoc since false (ds1.foldl (processDoc since false) initialState) d) := by
  constructor
  · simp [processDoc, helig, hfail]
  · simp [runConvert, List.foldl_append]

/-- Closed instance of C6: a single failing document on an unfiltered run. -/
theorem orchestrator_isolates_failure_witness :
    processDoc none false initialState ⟨"doc.pdf", some 0, .error "boom"⟩
      = { initialState with
          metrics := { initialState.metrics with
            total_candidates := initialState.metrics.total_candidates + 1,
            failures := initialState.metrics.failures + 1 },
          errors := initialState.errors
            ++ ["Failed to convert " ++ "doc.pdf" ++ ": " ++ "boom"] } ∧
    runConvert none false ([] ++ ⟨"doc.pdf", some 0, .error "boom"⟩ :: [])
      = List.foldl (processDoc none false)
          (processDoc none false (List.foldl (processDoc none false) initialState [])
            ⟨"doc.pdf", some 0, .error "boom"⟩) [] :=
  orchestrator_isolates_failure none [] [] ⟨"doc.pdf", some 0, .error "boom"⟩
    initialState "boom" rfl rfl

theorem processDoc_balanced (since : Option Int) (dryRun : Bool) (s : RunState)
    (d : DocCandidate) (hb : s.metrics.balanced) :
    (processDoc since dryRun s d).metrics.balanced := by
  simp only [RunMetrics.balanced] at hb ⊢
  cases hsp : (shouldProcess d.mtime since).1 with
  | false => simp [processDoc, hsp]; omega
  | true =>
    cases dryRun with
    | true => simp [processDoc, hsp]; omega
    | false =>
      cases hconv : d.conversion with
      | error e => simp [processDoc, hsp, hconv]; omega
      | ok v => simp [processDoc, hsp, hconv]; omega

theorem foldl_processDoc_balanced (since : Option Int) (dryRun : Bool) :
    ∀ (docs : List DocCandidate) (s : RunState), s.metrics.balanced →
      (docs.foldl (processDoc since dryRun) s).metrics.balanced := by
  intro docs
  induction docs with
  | nil => intro s hb; exact hb
  | cons d ds ih =>
    intro s hb
    exact ih (processDoc since dryRun s d) (processDoc_balanced since dryRun s d hb)

/-- C9: from any state satisfying the counter partition (in particular the
zero-initialised metrics of a fresh run), after processing any further
document list the partition `total = skipped + dry_run + successes +
failures` still holds — so it holds after every loop iteration — and the
derived eligible count equals `dry_run + successes + failures`. -/
theorem orchestrator_metrics_partition (since : Option Int) (dryRun : Bool)
    (docs : List DocCandidate) (s : RunState) (hb : s.metrics.balanced) :
    (docs.foldl (processDoc since dryRun) s).metrics.balanced ∧
    (docs.foldl (processDoc since dryRun) s).metrics.eligible
      = (docs.foldl (processDoc since dryRun) s).metrics.dry_run
        + (docs.foldl (processDoc since dryRun) s).metrics.successes
        + (docs.foldl (processDoc since dryRun) s).metrics.failures := by
  have hbal := foldl_processDoc_balanced since dryRun docs s hb
  refine ⟨hbal, ?_⟩
  simp only [RunMetrics.balanced] at hbal
  simp only [RunMetrics.eligible]
  omega

/-- Closed instance of C9: a fresh run over one converted and one vanished
document. -/
theorem orchestrator_metrics_partition_witness :
    (([⟨"a.pdf", some 0, .ok "md"⟩, ⟨"b.pdf", none, .error "gone"⟩] : List DocCandidate).foldl
        (processDoc none false) initialState).metrics.balanced ∧
    (([⟨"a.pdf", some 0, .ok "md"⟩, ⟨"b.pdf", none, .error "gone"⟩] : List DocCandidate).foldl
        (processDoc none false) initialState).metrics.eligible
      = (([⟨"a.pdf", some 0, .ok "md"⟩, ⟨"b.pdf", none, .error "gone"⟩] :
            List DocCandidate).foldl (processDoc none false) initialState).metrics.dry_run
        + (([⟨"a.pdf", some 0, .ok "md"⟩, ⟨"b.pdf", none, .error "gone"⟩] :
            List DocCandidate).foldl (processDoc none false) initialState).metrics.successes
        + (([⟨"a.pdf", some 0, .ok "md"⟩, ⟨"b.pdf", none, .error "gone"⟩] :
            List DocCandidate).foldl (processDoc none false) initialState).metrics.failures :=
  orchestrator_metrics_partition none false
    [⟨"a.pdf", some 0, .ok "md"⟩, ⟨"b.pdf", none, .error "gone"⟩] initialState rfl

/-- C10: a candidate whose `stat` fails (file vanished between listing and
processing) is skipped without invoking the engine and is counted in
`skipped_by_since` — for every filter setting, including no `--since` filter
at all — never as a failure; nothing is written or logged for it. -/
theorem orchestrator_missing_file_skipped (since : Option Int) (dryRun : Bool)
    (s : RunState) (d : DocCandidate) (hmt : d.mtime = none) :
    processDoc since dryRun s d
      = { s with metrics := { s.metrics with
            total_candidates := s.metrics.total_candidates + 1,
            skipped_by_since := s.metrics.skipped_by_since + 1 } } := by
  simp [processDoc, shouldProcess, hmt]

/-- Closed instance of C10: a vanished file on a run with no `--since`
filter; its (never consulted) conversion outcome is a success, yet it is
counted as skipped. -/
theorem orchestrator_missing_file_skipped_witness :
    processDoc none false initialState ⟨"gone.pdf", none, .ok "md"⟩
      = { initialState with metrics := { initialState.metrics with
            total_candidates := initialState.metrics.total_candidates + 1,
            skipped_by_since := initialState.metrics.skipped_by_since + 1 } } :=
  orchestrator_missing_file_skipped none false initialState ⟨"gone.pdf", none, .ok "md"⟩ rfl

end DocToMd
